import Mathlib

/-!
Shallow embedding of the streaming HTML tokenizer in src/lib/parse.js.

The JavaScript module drives everything through a handful of module-level
regular expressions; we embed them with a small backtracking regex engine
whose match list is ordered exactly by the JavaScript backtracking priority
(greedy quantifiers try longer matches first, lazy quantifiers shorter
first, alternatives left to right), so the head of the list is the match a
JavaScript RegExp would deliver.  Callbacks are modelled as an emitted
event trace; strings are lists of characters.
-/

namespace Html

/-- Characters matched by the JavaScript regex class backslash-s. -/
def jsIsWs (c : Char) : Bool :=
  c == ' ' || c == '\t' || c == '\n' || c == '\r' ||
  c.toNat == 0x0b || c.toNat == 0x0c ||
  c.toNat == 0xA0 || c.toNat == 0x1680 ||
  (decide (0x2000 ≤ c.toNat) && decide (c.toNat ≤ 0x200A)) ||
  c.toNat == 0x2028 || c.toNat == 0x2029 || c.toNat == 0x202F ||
  c.toNat == 0x205F || c.toNat == 0x3000 || c.toNat == 0xFEFF

/-- The single-quote character (written numerically). -/
def squote : Char := Char.ofNat 39

/-- Syntax of the regular expressions used by parse.js: character classes,
concatenation, alternation, greedy/lazy star, greedy/lazy optional and
numbered capture groups. -/
inductive RE where
  | eps : RE
  | cls (p : Char → Bool) : RE
  | seq (a b : RE) : RE
  | alt (a b : RE) : RE
  | star (greedy : Bool) (a : RE) : RE
  | opt (greedy : Bool) (a : RE) : RE
  | group (idx : Nat) (a : RE) : RE

/-- Captured groups of a match: association list from group index to the
captured characters; entries earlier in the list take precedence. -/
abbrev Caps := List (Nat × List Char)

/-- Read a capture group; JavaScript's undefined becomes none. -/
def getCap (caps : Caps) (i : Nat) : Option (List Char) :=
  (caps.find? fun p => p.1 == i).map (·.2)

/-- Combine the captures of two sequenced (or iterated) parts; the later
part's captures take precedence, as in JavaScript. -/
def mergeCaps (first later : Caps) : Caps := later ++ first

/-- Iterate the body of a star.  Every iteration must consume at least one
character (JavaScript aborts a quantifier iteration that matched the empty
string), so a fuel of the input length makes the iteration unbounded in
effect.  Results are in backtracking priority order: a greedy star lists
longer expansions first, a lazy star lists the empty expansion first. -/
def starIter (greedy : Bool) (matchA : List Char → List (Caps × List Char)) :
    Nat → List Char → List (Caps × List Char)
  | 0, s => [([], s)]
  | n+1, s =>
    let one := (matchA s).filter fun r => r.2.length < s.length
    let more := one.flatMap fun r =>
      (starIter greedy matchA n r.2).map fun r2 => (mergeCaps r.1 r2.1, r2.2)
    if greedy then more ++ [([], s)] else ([], s) :: more

/-- All the ways a regex can match a prefix of the input, in backtracking
priority order, each with its captures and the remaining input.  The head
of the list is the match JavaScript would produce. -/
def matchList : RE → List Char → List (Caps × List Char)
  | .eps, s => [([], s)]
  | .cls p, s =>
    match s with
    | [] => []
    | c :: t => if p c then [([], t)] else []
  | .seq a b, s =>
    (matchList a s).flatMap fun ra =>
      (matchList b ra.2).map fun rb => (mergeCaps ra.1 rb.1, rb.2)
  | .alt a b, s => matchList a s ++ matchList b s
  | .star g a, s => starIter g (matchList a) s.length s
  | .opt g a, s =>
    if g then matchList a s ++ [([], s)] else ([], s) :: matchList a s
  | .group i a, s =>
    (matchList a s).map fun r => ((i, s.take (s.length - r.2.length)) :: r.1, r.2)

/-- Literal sequence of characters as a regex. -/
def reLit (s : List Char) : RE :=
  s.foldr (fun c r => RE.seq (.cls fun x => x == c) r) .eps

/-- Literal sequence of characters, case-insensitively (the i flag). -/
def reLitCI (s : List Char) : RE :=
  s.foldr (fun c r => RE.seq (.cls fun x => x.toLower == c.toLower) r) .eps

/-- One-or-more repetition (greedy plus). -/
def rePlus (a : RE) : RE := .seq a (.star true a)

/-- Tag-name characters: the class excluding whitespace, equals, slash,
bang and the closing bracket. -/
def startNameChar (c : Char) : Bool :=
  !(jsIsWs c || c == '=' || c == '/' || c == '!' || c == '>')

/-- Attribute-name characters inside a start tag: excluding whitespace,
equals, slash and the closing bracket. -/
def startAttrNameChar (c : Char) : Bool :=
  !(jsIsWs c || c == '=' || c == '/' || c == '>')

/-- Unquoted-value characters: everything but the closing bracket and
whitespace. -/
def unquotedChar (c : Char) : Bool := !(c == '>' || jsIsWs c)

/-- One attribute-like token inside a start tag: whitespace, a name, and an
optional equals sign with an optional quoted or unquoted value. -/
def startAttrToken : RE :=
  .seq (rePlus (.cls jsIsWs))
  (.seq (rePlus (.cls startAttrNameChar))
        (.opt true (.seq (.star true (.cls jsIsWs))
                   (.seq (.cls fun c => c == '=')
                   (.seq (.star true (.cls jsIsWs))
                         (.opt true
                           (.alt (.seq (.cls fun c => c == '"')
                                 (.seq (.star true (.cls fun c => !(c == '"')))
                                       (.cls fun c => c == '"')))
                           (.alt (.seq (.cls fun c => c == squote)
                                 (.seq (.star true (.cls fun c => !(c == squote)))
                                       (.cls fun c => c == squote)))
                                 (rePlus (.cls unquotedChar))))))))))

/-- The startTag regex: an opening bracket, a captured tag name (group 1),
a captured attribute span (group 2), optional whitespace, a captured
empty-tag slash (group 3), optional whitespace, a closing bracket. -/
def startTag : RE :=
  .seq (.cls fun c => c == '<')
  (.seq (.group 1 (rePlus (.cls startNameChar)))
  (.seq (.group 2 (.star true startAttrToken))
  (.seq (.star true (.cls jsIsWs))
  (.seq (.group 3 (.opt true (.cls fun c => c == '/')))
  (.seq (.star true (.cls jsIsWs))
        (.cls fun c => c == '>'))))))

/-- The endTag regex: an opening bracket, a slash, a captured name
(group 1), any characters other than the closing bracket, the bracket. -/
def endTag : RE :=
  .seq (.cls fun c => c == '<')
  (.seq (.cls fun c => c == '/')
  (.seq (.group 1 (rePlus (.cls startNameChar)))
  (.seq (.star true (.cls fun c => !(c == '>')))
        (.cls fun c => c == '>'))))

/-- The comment regex: a literal comment opener, a lazily captured body
(group 1), and the comment closer. -/
def comment : RE :=
  .seq (.cls fun c => c == '<')
  (.seq (reLit "!--".data)
  (.seq (.group 1 (.star false (.cls fun _ => true)))
        (reLit "-->".data)))

/-- The commentInside regex: like comment but uncaptured and unanchored
(it is searched for anywhere in the raw text). -/
def commentInside : RE :=
  .seq (.cls fun c => c == '<')
  (.seq (reLit "!--".data)
  (.seq (.star false (.cls fun _ => true))
        (reLit "-->".data)))

/-- The other regex: an opening bracket, a lazily captured body (group 1),
and the first closing bracket. -/
def other : RE :=
  .seq (.cls fun c => c == '<')
  (.seq (.group 1 (.star false (.cls fun _ => true)))
        (.cls fun c => c == '>'))

/-- Attribute-name characters in the attribute decomposer: everything but
whitespace and equals. -/
def attrNameChar (c : Char) : Bool := !(jsIsWs c || c == '=')

/-- The regex class dot: any character except a line terminator. -/
def jsDot (c : Char) : Bool :=
  !(c == '\n' || c == '\r' || c.toNat == 0x2028 || c.toNat == 0x2029)

/-- One character inside a quoted attribute value: a backslash escape or
any character other than the closing quote. -/
def attrEsc (q : Char) : RE :=
  .alt (.seq (.cls fun c => c == '\\') (.cls jsDot)) (.cls fun c => !(c == q))

/-- The attr regex: a captured name (group 1), an optionally captured
equals sign (group 2), and an optional value captured as group 3
(double-quoted), group 4 (single-quoted) or group 5 (unquoted). -/
def attr : RE :=
  .seq (.group 1 (rePlus (.cls attrNameChar)))
  (.opt true (.seq (.star true (.cls jsIsWs))
             (.seq (.group 2 (.cls fun c => c == '='))
             (.seq (.star true (.cls jsIsWs))
                   (.opt true
                     (.alt (.seq (.cls fun c => c == '"')
                           (.seq (.group 3 (.star true (attrEsc '"')))
                                 (.cls fun c => c == '"')))
                     (.alt (.seq (.cls fun c => c == squote)
                           (.seq (.group 4 (.star true (attrEsc squote)))
                                 (.cls fun c => c == squote)))
                           (.group 5 (rePlus (.cls unquotedChar))))))))))

/-- The rawTagsDefault regex, style or script as the whole name,
case-insensitively. -/
def rawTagsRE : RE :=
  .group 1 (.alt (reLitCI "style".data) (reLitCI "script".data))

/-- Test of the rawTagsDefault regex against a tag name: anchored at both
ends, so the whole name must be style or script up to case. -/
def rawTagsDefault (tagName : List Char) : Bool :=
  (matchList rawTagsRE tagName).any fun r => r.2.isEmpty

/-- Default closing-sequence matcher: the case-insensitive literal built
from a slash-bracket prefix and the tag name (the RegExp the source builds
from the tag-name string). -/
def matchEndDefault (tagName : List Char) : RE :=
  reLitCI ('<' :: '/' :: tagName)

/-- Result of a successful anchored regex match: the full matched text,
the captures and the remaining input. -/
structure MatchRec where
  m0 : List Char
  caps : Caps
  rest : List Char
deriving DecidableEq

/-- Match a regex at the start of the input, as the anchored regexes of the
source do; the head of the priority-ordered match list is JavaScript's
match. -/
def anchoredMatch (re : RE) (s : List Char) : Option MatchRec :=
  (matchList re s).head?.map fun r =>
    ⟨s.take (s.length - r.2.length), r.1, r.2⟩

/-- Leftmost match of an unanchored regex: the first position whose suffix
the regex matches, with the match record there. -/
def firstMatchPos (re : RE) : List Char → Option (Nat × MatchRec)
  | [] => (anchoredMatch re []).map fun m => (0, m)
  | c :: t =>
    match anchoredMatch re (c :: t) with
    | some m => some (0, m)
    | none => (firstMatchPos re t).map fun p => (p.1 + 1, p.2)

/-- JavaScript String.search: index of the leftmost match, or minus one. -/
def jsSearch (re : RE) (s : List Char) : Int :=
  match firstMatchPos re s with
  | some p => (p.1 : Int)
  | none => -1

/-- JavaScript String.indexOf for a single character. -/
def jsIndexOf (c : Char) (s : List Char) : Int :=
  match s.findIdx? fun x => x == c with
  | some i => (i : Int)
  | none => -1

/-- Successive leftmost matches of a global regex, each search resuming
just after the previous match (advancing one character past an empty
match, as JavaScript does).  Each step consumes at least one character, so
the explicit fuel of the input length never runs out. -/
def jsMatchAllF (re : RE) : Nat → List Char → List MatchRec
  | 0, _ => []
  | fuel+1, s =>
    match firstMatchPos re s with
    | none => []
    | some (i, m) =>
      let adv := i + max m.m0.length 1
      if s.length < adv then [m] else m :: jsMatchAllF re fuel (s.drop adv)

/-- All matches of a global regex over a string, left to right. -/
def jsMatchAll (re : RE) (s : List Char) : List MatchRec :=
  jsMatchAllF re (s.length + 1) s

/-- JavaScript truthiness of a string-or-undefined value: defined and
non-empty. -/
def jsTruthy (o : Option (List Char)) : Bool := !(o.getD []).isEmpty

/-- JavaScript short-circuit or on string-or-undefined values. -/
def jsOrStr (a b : Option (List Char)) : Option (List Char) :=
  if jsTruthy a then a else b

/-- The value stored for one attr match, as the replace callback computes
it: attr0 or attr1 or attr2 or (equals chooses the empty string over
null). -/
def attrValue (caps : Caps) : Option (List Char) :=
  jsOrStr (getCap caps 3) (jsOrStr (getCap caps 4) (jsOrStr (getCap caps 5)
    (if jsTruthy (getCap caps 2) then some [] else none)))

/-- Decode rule for one attribute occurrence as the specification words it:
a captured quoted or unquoted value is stored verbatim, an equals sign with
no captured value stores the empty string, no equals sign stores the null
marker.  Stated over the same captures as attrValue for comparison. -/
def specAttrDecode (caps : Caps) : Option (List Char) :=
  match getCap caps 3 with
  | some v => some v
  | none =>
    match getCap caps 4 with
    | some v => some v
    | none =>
      match getCap caps 5 with
      | some v => some v
      | none => if (getCap caps 2).isSome then some [] else none

/-- Ordinary own-property store into a JavaScript object map (the [[Set]]
path taken for every key the prototype chain does not intercept): an
existing key keeps its position and gets the new value, a new key is
appended. -/
def objInsert (l : List (List Char × Option (List Char))) (k : List Char)
    (v : Option (List Char)) : List (List Char × Option (List Char)) :=
  if l.any fun p => p.1 == k then
    l.map fun p => if p.1 == k then (k, v) else p
  else l ++ [(k, v)]

/-- The special property key that the prototype chain of a plain object
literal intercepts on assignment. -/
def protoKey : List Char := "__proto__".data

/-- One JavaScript assignment attrs[k] = v on a plain object literal.  The
state is the own-property list together with a flag recording whether
Object.prototype is still the object's prototype.  While it is, assigning
to the proto key invokes the inherited accessor: a string value is
silently ignored and a null value replaces the prototype with null — in
both cases no own property is created.  Once the prototype is null, the
proto key is stored like any other. -/
def objAssign (st : List (List Char × Option (List Char)) × Bool)
    (k : List Char) (v : Option (List Char)) :
    List (List Char × Option (List Char)) × Bool :=
  if k == protoKey && st.2 then
    match v with
    | some _ => st
    | none => (st.1, false)
  else (objInsert st.1 k v, st.2)

/-- Own-property lookup in the built attribute map (reading the proto key
of an intact object would yield the prototype object rather than an
attribute entry, which is deliberately outside this view). -/
def objLookup (l : List (List Char × Option (List Char))) (k : List Char) :
    Option (Option (List Char)) :=
  (l.find? fun p => p.1 == k).map (·.2)

/-- The attrs object built by onStartTag: every attr match in the captured
attribute span is assigned under its lower-cased name, starting from an
empty object literal whose prototype is intact; the callback observes the
resulting own properties. -/
def buildAttrs (remainder : List Char) : List (List Char × Option (List Char)) :=
  ((jsMatchAll attr remainder).foldl
    (fun st m =>
      objAssign st (((getCap m.caps 1).getD []).map Char.toLower)
        (attrValue m.caps))
    ([], true)).1

/-- One callback invocation of the parser, with the arguments the source
passes to the corresponding handler. -/
inductive Event where
  | start (tag : List Char) (tagName : List Char)
      (attrs : List (List Char × Option (List Char))) (html : List Char) : Event
  | endTag (tag : List Char) (data : List Char) (html : List Char) : Event
  | text (txt : List Char) (isRawText : Bool) (html : List Char) : Event
  | comment (tag : List Char) (data : List Char) (html : List Char) : Event
  | other (tag : List Char) (data : List Char) (html : List Char) : Event
  | error (remaining : List Char) : Event
deriving DecidableEq

/-- How a parse call ends: the loop ran the input down to empty, an error
was thrown to the caller, or the modelling fuel ran out (the source loops
on). -/
inductive Outcome where
  | done : Outcome
  | thrown (remaining : List Char) : Outcome
  | outOfFuel : Outcome
deriving DecidableEq

/-- The options object: whether an error handler is configured, and the
optional matchEnd and rawTags overrides (the five unit handlers default to
no-ops and do not influence control flow, so only their invocations are
recorded). -/
structure Options where
  error : Bool := false
  matchEnd : Option (List Char → RE) := none
  rawTags : Option (List Char → Bool) := none

/-- The onStartTag helper: slices off the full match, decomposes the
captured attribute span, fires the start handler, and returns the
remaining input. -/
def onStartTag (html : List Char) (m : MatchRec) : List Event × List Char :=
  let tag := m.m0
  let tagName := (getCap m.caps 1).getD []
  let remainder := (getCap m.caps 2).getD []
  let html2 := html.drop tag.length
  let attrs := buildAttrs remainder
  ([Event.start tag (tagName.map Char.toLower) attrs html2], html2)

/-- The onTag helper shared by the end, comment and other callbacks:
slices off the full match and fires the handler with the match and its
datum. -/
def onTag (html : List Char) (tag data : List Char)
    (mk : List Char → List Char → List Char → Event) : List Event × List Char :=
  let html2 := html.drop tag.length
  ([mk tag data html2], html2)

/-- JavaScript String.slice index clamping for a single index. -/
def jsClamp (len : Nat) (i : Int) : Nat :=
  if i < 0 then ((len : Int) + i).toNat else min i.toNat len

/-- The onText helper: a found index splits the input there, not-found
(minus one, the only index with a falsy bitwise complement) takes the
whole input; an empty text unit fires no callback. -/
def onText (html : List Char) (index : Int) (isRawText : Bool) :
    List Event × List Char :=
  if index ≠ -1 then
    let text := html.take (jsClamp html.length index)
    let html2 := html.drop (jsClamp html.length index)
    ((if text.isEmpty then [] else [Event.text text isRawText html2]), html2)
  else
    ((if html.isEmpty then [] else [Event.text html isRawText []]), [])

/-- The rawEnd scanner, with the accumulated offset explicit and fuel for
the recursion: search for the ending, and if an HTML comment starts
strictly before the found index, skip past the comment and search again.
Every recursive step drops past a comment of at least one character, so a
fuel of the input length never runs out. -/
def rawEndF (ending : RE) : Nat → List Char → Nat → Int
  | 0, html, offset => jsSearch ending html + offset
  | fuel+1, html, offset =>
    let index := jsSearch ending html
    match firstMatchPos commentInside html with
    | some (ci, cm) =>
      if (ci : Int) < index then
        let commentEnd := ci + cm.m0.length
        rawEndF ending fuel (html.drop commentEnd) (offset + commentEnd)
      else index + offset
    | none => index + offset

/-- The rawEnd scanner as called by the parser. -/
def rawEnd (html : List Char) (ending : RE) (offset : Nat) : Int :=
  rawEndF ending (html.length + 1) html offset

/-- One iteration of the parse loop after the stall check: classify the
input at the cursor, trying startTag, endTag, comment and other in that
fixed order when the input opens with a bracket, and otherwise extract the
text run up to the next bracket. -/
def dispatch (me : List Char → RE) (rt : List Char → Bool) (html : List Char) :
    List Event × List Char :=
  if html.head? = some '<' then
    match anchoredMatch startTag html with
    | some m =>
      let r1 := onStartTag html m
      let tagName := (getCap m.caps 1).getD []
      if rt tagName then
        let index := rawEnd r1.2 (me tagName) 0
        let r2 := onText r1.2 index true
        (r1.1 ++ r2.1, r2.2)
      else r1
    | none =>
      match anchoredMatch endTag html with
      | some m =>
        onTag html m.m0 (((getCap m.caps 1).getD []).map Char.toLower) Event.endTag
      | none =>
        match anchoredMatch comment html with
        | some m => onTag html m.m0 ((getCap m.caps 1).getD []) Event.comment
        | none =>
          match anchoredMatch other html with
          | some m => onTag html m.m0 ((getCap m.caps 1).getD []) Event.other
          | none => onText html (jsIndexOf '<' html) false
  else onText html (jsIndexOf '<' html) false

/-- The parse loop: while input remains, report a stalled iteration (the
input identical to the previous iteration's) to the error handler and
carry on, or throw it to the caller when no handler is configured; then
dispatch one lexical unit.  The fuel bounds the number of iterations of
the model; the source has no such bound. -/
def parseLoop (me : List Char → RE) (rt : List Char → Bool) (hasError : Bool) :
    Nat → List Char → Option (List Char) → List Event × Outcome
  | 0, _, _ => ([], Outcome.outOfFuel)
  | fuel+1, html, last =>
    if html.isEmpty then ([], Outcome.done)
    else if last = some html then
      if hasError then
        let d := dispatch me rt html
        let rest := parseLoop me rt hasError fuel d.2 (some html)
        (Event.error html :: d.1 ++ rest.1, rest.2)
      else ([], Outcome.thrown html)
    else
      let d := dispatch me rt html
      let rest := parseLoop me rt hasError fuel d.2 (some html)
      (d.1 ++ rest.1, rest.2)

/-- The exported parse function: an empty input returns at once, otherwise
the loop runs with the configured or default matchEnd and rawTags and with
no previous-iteration checkpoint. -/
def parse (fuel : Nat) (html : List Char) (options : Options) :
    List Event × Outcome :=
  if html.isEmpty then ([], Outcome.done)
  else
    parseLoop (options.matchEnd.getD matchEndDefault)
      (options.rawTags.getD rawTagsDefault) options.error fuel html none

/-- The input characters a callback reports: the full matched text of a
start, end, comment or other callback, the text content of a text
callback, nothing for an error callback. -/
def emittedText : Event → List Char
  | .start tag _ _ _ => tag
  | .endTag tag _ _ => tag
  | .text t _ _ => t
  | .comment tag _ _ => tag
  | .other tag _ _ => tag
  | .error _ => []

/-- The remainder argument a callback receives, none for the error
callback (which receives an error object instead). -/
def restOf : Event → Option (List Char)
  | .start _ _ _ r => some r
  | .endTag _ _ r => some r
  | .text _ _ r => some r
  | .comment _ _ r => some r
  | .other _ _ r => some r
  | .error _ => none

/-- Termination of a parse call: some fuel suffices for the loop to end by
itself (emptying the input or throwing). -/
def Terminates (html : List Char) (options : Options) : Prop :=
  ∃ n, (parse n html options).2 ≠ Outcome.outOfFuel

/-- Syntactically capture-free regexes. -/
def groupFree : RE → Bool
  | .eps => true
  | .cls _ => true
  | .seq a b => groupFree a && groupFree b
  | .alt a b => groupFree a && groupFree b
  | .star _ a => groupFree a
  | .opt _ a => groupFree a
  | .group _ _ => false

theorem mem_matchList_eps {s : List Char} {r : Caps × List Char} :
    r ∈ matchList .eps s ↔ r = ([], s) := by
  simp [matchList]

theorem mem_matchList_cls {p : Char → Bool} {s : List Char} {r : Caps × List Char} :
    r ∈ matchList (.cls p) s ↔ ∃ c t, s = c :: t ∧ p c = true ∧ r = ([], t) := by
  cases s with
  | nil => simp [matchList]
  | cons c t =>
    by_cases h : p c = true
    · simp only [matchList, h, if_true, List.mem_singleton]
      constructor
      · rintro rfl
        exact ⟨c, t, rfl, h, rfl⟩
      · rintro ⟨c', t', heq, _, rfl⟩
        cases heq
        rfl
    · have hnil : matchList (.cls p) (c :: t) = [] := by
        simp [matchList, h]
      rw [hnil]
      simp only [List.not_mem_nil, false_iff, not_exists]
      intro c' t'
      rintro ⟨heq, hp, _⟩
      cases heq
      exact h hp

theorem mem_matchList_seq {a b : RE} {s : List Char} {r : Caps × List Char} :
    r ∈ matchList (.seq a b) s ↔
      ∃ ra ∈ matchList a s, ∃ rb ∈ matchList b ra.2,
        r = (mergeCaps ra.1 rb.1, rb.2) := by
  simp only [matchList, List.mem_flatMap, List.mem_map]
  constructor
  · rintro ⟨ra, hra, rb, hrb, h⟩
    exact ⟨ra, hra, rb, hrb, h.symm⟩
  · rintro ⟨ra, hra, rb, hrb, h⟩
    exact ⟨ra, hra, rb, hrb, h.symm⟩

theorem mem_matchList_alt {a b : RE} {s : List Char} {r : Caps × List Char} :
    r ∈ matchList (.alt a b) s ↔ r ∈ matchList a s ∨ r ∈ matchList b s := by
  simp [matchList]

theorem mem_matchList_opt {g : Bool} {a : RE} {s : List Char} {r : Caps × List Char} :
    r ∈ matchList (.opt g a) s ↔ r ∈ matchList a s ∨ r = ([], s) := by
  cases g <;> simp [matchList, or_comm]

theorem mem_matchList_group {i : Nat} {a : RE} {s : List Char} {r : Caps × List Char} :
    r ∈ matchList (.group i a) s ↔
      ∃ ra ∈ matchList a s,
        r = ((i, s.take (s.length - ra.2.length)) :: ra.1, ra.2) := by
  simp only [matchList, List.mem_map]
  constructor
  · rintro ⟨ra, hra, h⟩
    exact ⟨ra, hra, h.symm⟩
  · rintro ⟨ra, hra, h⟩
    exact ⟨ra, hra, h.symm⟩

theorem matchList_star_eq {g : Bool} {a : RE} {s : List Char} :
    matchList (.star g a) s = starIter g (matchList a) s.length s := by
  simp [matchList]

theorem mem_starIter_succ {g : Bool} {matchA : List Char → List (Caps × List Char)}
    {n : Nat} {s : List Char} {r : Caps × List Char} :
    r ∈ starIter g matchA (n+1) s ↔
      r = ([], s) ∨
      ∃ r1 ∈ matchA s, r1.2.length < s.length ∧
        ∃ r2 ∈ starIter g matchA n r1.2, r = (mergeCaps r1.1 r2.1, r2.2) := by
  cases g
  · simp only [starIter, Bool.false_eq_true, if_false, List.mem_cons, List.mem_flatMap,
      List.mem_filter, List.mem_map, decide_eq_true_eq]
    constructor
    · rintro (h | ⟨r1, ⟨h1, hlt⟩, r2, h2, h⟩)
      · exact Or.inl h
      · exact Or.inr ⟨r1, h1, hlt, r2, h2, h.symm⟩
    · rintro (h | ⟨r1, h1, hlt, r2, h2, h⟩)
      · exact Or.inl h
      · exact Or.inr ⟨r1, ⟨h1, hlt⟩, r2, h2, h.symm⟩
  · simp only [starIter, if_true, List.mem_append, List.mem_singleton, List.mem_flatMap,
      List.mem_filter, List.mem_map, decide_eq_true_eq]
    constructor
    · rintro (⟨r1, ⟨h1, hlt⟩, r2, h2, h⟩ | h)
      · exact Or.inr ⟨r1, h1, hlt, r2, h2, h.symm⟩
      · exact Or.inl h
    · rintro (h | ⟨r1, h1, hlt, r2, h2, h⟩)
      · exact Or.inr h
      · exact Or.inl ⟨r1, ⟨h1, hlt⟩, r2, h2, h.symm⟩

theorem mem_starIter_zero {g : Bool} {matchA : List Char → List (Caps × List Char)}
    {s : List Char} {r : Caps × List Char} :
    r ∈ starIter g matchA 0 s ↔ r = ([], s) := by
  simp [starIter]

theorem starIter_rest_suffix {g : Bool} {matchA : List Char → List (Caps × List Char)}
    (hA : ∀ s r, r ∈ matchA s → r.2 <:+ s) :
    ∀ n s r, r ∈ starIter g matchA n s → r.2 <:+ s := by
  intro n
  induction n with
  | zero =>
    intro s r h
    rw [mem_starIter_zero] at h
    subst h
    exact List.suffix_refl s
  | succ n ih =>
    intro s r h
    rw [mem_starIter_succ] at h
    rcases h with h | ⟨r1, h1, _, r2, h2, rfl⟩
    · subst h
      exact List.suffix_refl s
    · exact (ih r1.2 r2 h2).trans (hA s r1 h1)

theorem matchList_rest_suffix : ∀ (re : RE) (s : List Char) r,
    r ∈ matchList re s → r.2 <:+ s := by
  intro re
  induction re with
  | eps =>
    intro s r h
    rw [mem_matchList_eps] at h
    subst h
    exact List.suffix_refl s
  | cls p =>
    intro s r h
    obtain ⟨c, t, rfl, _, rfl⟩ := mem_matchList_cls.1 h
    exact List.suffix_cons c t
  | seq a b iha ihb =>
    intro s r h
    obtain ⟨ra, hra, rb, hrb, rfl⟩ := mem_matchList_seq.1 h
    exact (ihb ra.2 rb hrb).trans (iha s ra hra)
  | alt a b iha ihb =>
    intro s r h
    rcases mem_matchList_alt.1 h with h | h
    · exact iha s r h
    · exact ihb s r h
  | star g a iha =>
    intro s r h
    rw [matchList_star_eq] at h
    exact starIter_rest_suffix iha _ _ _ h
  | opt g a iha =>
    intro s r h
    rcases mem_matchList_opt.1 h with h | h
    · exact iha s r h
    · subst h
      exact List.suffix_refl s
  | group i a iha =>
    intro s r h
    obtain ⟨ra, hra, rfl⟩ := mem_matchList_group.1 h
    exact iha s ra hra

theorem starIter_caps_nil {g : Bool} {matchA : List Char → List (Caps × List Char)}
    (hA : ∀ s r, r ∈ matchA s → r.1 = []) :
    ∀ n s r, r ∈ starIter g matchA n s → r.1 = [] := by
  intro n
  induction n with
  | zero =>
    intro s r h
    rw [mem_starIter_zero] at h
    subst h
    rfl
  | succ n ih =>
    intro s r h
    rw [mem_starIter_succ] at h
    rcases h with h | ⟨r1, h1, _, r2, h2, rfl⟩
    · subst h
      rfl
    · simp [mergeCaps, hA s r1 h1, ih r1.2 r2 h2]

theorem matchList_groupFree_caps : ∀ (re : RE), groupFree re = true →
    ∀ (s : List Char) r, r ∈ matchList re s → r.1 = [] := by
  intro re
  induction re with
  | eps =>
    intro _ s r h
    rw [mem_matchList_eps] at h
    subst h
    rfl
  | cls p =>
    intro _ s r h
    obtain ⟨c, t, _, _, rfl⟩ := mem_matchList_cls.1 h
    rfl
  | seq a b iha ihb =>
    intro hgf s r h
    simp only [groupFree, Bool.and_eq_true] at hgf
    obtain ⟨ra, hra, rb, hrb, rfl⟩ := mem_matchList_seq.1 h
    simp [mergeCaps, iha hgf.1 s ra hra, ihb hgf.2 ra.2 rb hrb]
  | alt a b iha ihb =>
    intro hgf s r h
    simp only [groupFree, Bool.and_eq_true] at hgf
    rcases mem_matchList_alt.1 h with h | h
    · exact iha hgf.1 s r h
    · exact ihb hgf.2 s r h
  | star g a iha =>
    intro hgf s r h
    rw [matchList_star_eq] at h
    exact starIter_caps_nil (iha hgf) _ _ _ h
  | opt g a iha =>
    intro hgf s r h
    rcases mem_matchList_opt.1 h with h | h
    · exact iha hgf s r h
    · subst h
      rfl
  | group i a iha =>
    intro hgf _ _ _
    simp [groupFree] at hgf

theorem matchList_seq_cls_lt {p : Char → Bool} {b : RE} {s : List Char}
    {r : Caps × List Char} (h : r ∈ matchList (.seq (.cls p) b) s) :
    r.2.length < s.length := by
  obtain ⟨ra, hra, rb, hrb, rfl⟩ := mem_matchList_seq.1 h
  obtain ⟨c, t, rfl, _, rfl⟩ := mem_matchList_cls.1 hra
  have hle := (matchList_rest_suffix b t rb hrb).length_le
  simp only [List.length_cons]
  omega

theorem anchoredMatch_some_mem {re : RE} {s : List Char} {m : MatchRec}
    (h : anchoredMatch re s = some m) :
    ∃ r ∈ matchList re s, m = ⟨s.take (s.length - r.2.length), r.1, r.2⟩ := by
  unfold anchoredMatch at h
  cases hl : matchList re s with
  | nil =>
    rw [hl] at h
    simp at h
  | cons r rs =>
    rw [hl] at h
    simp only [List.head?_cons, Option.map_some', Option.some.injEq] at h
    exact ⟨r, by simp [hl], h.symm⟩

theorem anchoredMatch_split {re : RE} {s : List Char} {m : MatchRec}
    (h : anchoredMatch re s = some m) :
    m.m0 ++ m.rest = s ∧ s.drop m.m0.length = m.rest ∧ m.rest <:+ s := by
  obtain ⟨r, hr, rfl⟩ := anchoredMatch_some_mem h
  obtain ⟨p, hp⟩ := matchList_rest_suffix re s r hr
  have hplen : s.length - r.2.length = p.length := by
    rw [← hp, List.length_append]
    omega
  have htake : s.take (s.length - r.2.length) = p := by
    rw [hplen, ← hp, List.take_left]
  refine ⟨?_, ?_, ⟨p, hp⟩⟩
  · simp [htake, ← hp]
  · simp [htake, ← hp, List.drop_left]

theorem firstMatchPos_anchored {re : RE} : ∀ {s : List Char} {i : Nat} {m : MatchRec},
    firstMatchPos re s = some (i, m) →
    anchoredMatch re (s.drop i) = some m ∧ i ≤ s.length := by
  intro s
  induction s with
  | nil =>
    intro i m h
    unfold firstMatchPos at h
    cases ha : anchoredMatch re [] with
    | none =>
      rw [ha] at h
      simp at h
    | some m' =>
      rw [ha] at h
      obtain ⟨rfl, rfl⟩ : 0 = i ∧ m' = m := by simpa using h
      exact ⟨ha, Nat.le_refl _⟩
  | cons c t ih =>
    intro i m h
    unfold firstMatchPos at h
    cases ha : anchoredMatch re (c :: t) with
    | some m' =>
      rw [ha] at h
      obtain ⟨rfl, rfl⟩ : 0 = i ∧ m' = m := by simpa using h
      exact ⟨ha, Nat.zero_le _⟩
    | none =>
      rw [ha] at h
      cases hf : firstMatchPos re t with
      | none =>
        rw [hf] at h
        simp at h
      | some p =>
        rw [hf] at h
        obtain ⟨hp1, rfl⟩ : p.1 + 1 = i ∧ p.2 = m := by simpa using h
        obtain ⟨hA, hle⟩ := ih (i := p.1) (m := p.2) hf
        subst hp1
        refine ⟨by simpa [List.drop_succ_cons] using hA, ?_⟩
        simp only [List.length_cons]
        omega

theorem commentInside_consumes {s : List Char} {m : MatchRec}
    (h : anchoredMatch commentInside s = some m) :
    0 < m.m0.length ∧ m.m0.length ≤ s.length := by
  obtain ⟨r, hr, rfl⟩ := anchoredMatch_some_mem h
  unfold commentInside at hr
  have hlt := matchList_seq_cls_lt hr
  simp only [List.length_take]
  omega

theorem firstMatchPos_comment_bounds {s : List Char} {i : Nat} {m : MatchRec}
    (h : firstMatchPos commentInside s = some (i, m)) :
    0 < i + m.m0.length ∧ i + m.m0.length ≤ s.length := by
  obtain ⟨hA, hle⟩ := firstMatchPos_anchored h
  obtain ⟨hpos, hlen⟩ := commentInside_consumes hA
  rw [List.length_drop] at hlen
  omega

theorem rawEndF_fuel (e : RE) : ∀ (f g : Nat) (html : List Char) (off : Nat),
    html.length < f → html.length < g →
    rawEndF e f html off = rawEndF e g html off := by
  intro f
  induction f with
  | zero =>
    intro g html off hf
    omega
  | succ f ih =>
    intro g html off hf hg
    cases g with
    | zero => omega
    | succ g' =>
      simp only [rawEndF]
      cases hc : firstMatchPos commentInside html with
      | none => rfl
      | some p =>
        obtain ⟨ci, cm⟩ := p
        by_cases hlt : (ci : Int) < jsSearch e html
        · simp only [hlt, if_true]
          obtain ⟨hpos, hle⟩ := firstMatchPos_comment_bounds hc
          apply ih
          · rw [List.length_drop]
            omega
          · rw [List.length_drop]
            omega
        · simp only [hlt, if_false]

theorem onText_concat (html : List Char) (i : Int) (b : Bool) :
    ((onText html i b).1.map emittedText).flatten ++ (onText html i b).2 = html := by
  unfold onText
  by_cases h : i = -1
  · subst h
    rw [if_neg (fun hc => hc rfl)]
    by_cases hh : html.isEmpty
    · simp_all
    · simp [hh, emittedText]
  · rw [if_pos h]
    by_cases ht : (html.take (jsClamp html.length i)).isEmpty
    · rcases List.take_eq_nil_iff.1 (List.isEmpty_iff.1 ht) with h0 | h0 <;>
        simp [ht, h0]
    · simp [ht, emittedText]

theorem onText_snd_suffix (html : List Char) (i : Int) (b : Bool) :
    (onText html i b).2 <:+ html := by
  unfold onText
  by_cases h : i = -1
  · subst h
    rw [if_neg (fun hc => hc rfl)]
    exact List.nil_suffix
  · rw [if_pos h]
    exact List.drop_suffix _ _

theorem onText_events (html : List Char) (i : Int) (b : Bool) :
    ∀ e ∈ (onText html i b).1, restOf e = some (onText html i b).2 := by
  unfold onText
  by_cases h : i = -1
  · subst h
    rw [if_neg (fun hc => hc rfl)]
    by_cases hh : html.isEmpty <;> simp [hh, restOf]
  · rw [if_pos h]
    by_cases ht : (html.take (jsClamp html.length i)).isEmpty <;> simp [ht, restOf]

theorem onStartTag_snd {html : List Char} {m : MatchRec}
    (h : anchoredMatch startTag html = some m) :
    (onStartTag html m).2 = m.rest := by
  unfold onStartTag
  exact (anchoredMatch_split h).2.1

theorem onStartTag_concat {html : List Char} {m : MatchRec}
    (h : anchoredMatch startTag html = some m) :
    ((onStartTag html m).1.map emittedText).flatten ++ (onStartTag html m).2 = html := by
  unfold onStartTag
  simp only [List.map_cons, List.map_nil, emittedText, List.flatten_cons,
    List.flatten_nil, List.append_nil]
  have := (anchoredMatch_split h).2.1
  rw [this]
  exact (anchoredMatch_split h).1

theorem onTag_concat {re : RE} {html : List Char} {m : MatchRec} {data : List Char}
    {mk : List Char → List Char → List Char → Event}
    (h : anchoredMatch re html = some m)
    (hmk : ∀ a b c, emittedText (mk a b c) = a) :
    ((onTag html m.m0 data mk).1.map emittedText).flatten ++
      (onTag html m.m0 data mk).2 = html := by
  unfold onTag
  simp only [List.map_cons, List.map_nil, hmk, List.flatten_cons, List.flatten_nil,
    List.append_nil]
  rw [(anchoredMatch_split h).2.1]
  exact (anchoredMatch_split h).1

theorem dispatch_concat (me : List Char → RE) (rt : List Char → Bool)
    (html : List Char) :
    ((dispatch me rt html).1.map emittedText).flatten ++ (dispatch me rt html).2 = html := by
  unfold dispatch
  by_cases hlt : html.head? = some '<'
  · rw [if_pos hlt]
    cases hs : anchoredMatch startTag html with
    | some m =>
      by_cases hraw : rt ((getCap m.caps 1).getD []) = true
      · simp only [hraw, if_true, List.map_append, List.flatten_append, List.append_assoc]
        rw [onText_concat]
        exact onStartTag_concat hs
      · simp only [hraw, if_false]
        exact onStartTag_concat hs
    | none =>
      cases he : anchoredMatch endTag html with
      | some m => exact onTag_concat he (fun _ _ _ => rfl)
      | none =>
        cases hc : anchoredMatch comment html with
        | some m => exact onTag_concat hc (fun _ _ _ => rfl)
        | none =>
          cases ho : anchoredMatch other html with
          | some m => exact onTag_concat ho (fun _ _ _ => rfl)
          | none => exact onText_concat html _ false
  · rw [if_neg hlt]
    exact onText_concat html _ false

theorem parseLoop_concat (me : List Char → RE) (rt : List Char → Bool) (he : Bool) :
    ∀ (n : Nat) (html : List Char) (last : Option (List Char)) (evs : List Event),
    parseLoop me rt he n html last = (evs, Outcome.done) →
    (evs.map emittedText).flatten = html := by
  intro n
  induction n with
  | zero =>
    intro html last evs h
    simp only [parseLoop] at h
    injection h with _ h2
    exact absurd h2 (by simp)
  | succ n ih =>
    intro html last evs h
    simp only [parseLoop] at h
    by_cases hemp : html.isEmpty
    · rw [if_pos hemp] at h
      injection h with h1 _
      subst h1
      simp [List.isEmpty_iff.1 hemp]
    · rw [if_neg hemp] at h
      by_cases hlast : last = some html
      · rw [if_pos hlast] at h
        by_cases hhe : he = true
        · subst hhe
          rw [if_pos rfl] at h
          injection h with h1 h2
          subst h1
          have hrec : parseLoop me rt true n (dispatch me rt html).2 (some html) =
              ((parseLoop me rt true n (dispatch me rt html).2 (some html)).1,
                Outcome.done) := by
            rw [← h2]
          have ihres := ih (dispatch me rt html).2 (some html) _ hrec
          simp only [List.map_cons, List.flatten_cons, emittedText, List.nil_append,
            List.map_append, List.flatten_append]
          rw [ihres]
          exact dispatch_concat me rt html
        · rw [if_neg hhe] at h
          injection h with _ h2
          exact absurd h2 (by simp)
      · rw [if_neg hlast] at h
        injection h with h1 h2
        subst h1
        have hrec : parseLoop me rt he n (dispatch me rt html).2 (some html) =
            ((parseLoop me rt he n (dispatch me rt html).2 (some html)).1,
              Outcome.done) := by
          rw [← h2]
        have ihres := ih (dispatch me rt html).2 (some html) _ hrec
        simp only [List.map_append, List.flatten_append]
        rw [ihres]
        exact dispatch_concat me rt html

theorem chain'_of_all_eq {α : Type} {R : α → α → Prop} {v : α} :
    ∀ {l : List α}, (∀ r ∈ l, r = v) → R v v → List.Chain' R l := by
  intro l
  induction l with
  | nil => intro _ _; exact List.chain'_nil
  | cons a t ih =>
    intro hall hv
    rw [List.chain'_cons']
    refine ⟨?_, ih (fun r hr => hall r (List.mem_cons_of_mem a hr)) hv⟩
    intro y hy
    rw [hall y (List.mem_cons_of_mem a (List.mem_of_mem_head? hy)),
      hall a (List.mem_cons_self a t)]
    exact hv

theorem onText_rest_eq (html : List Char) (i : Int) (b : Bool) :
    ∀ r ∈ (onText html i b).1.filterMap restOf, r = (onText html i b).2 := by
  intro r hr
  rw [List.mem_filterMap] at hr
  obtain ⟨e, he, hre⟩ := hr
  rw [onText_events html i b e he] at hre
  injection hre with h
  exact h.symm

theorem onStartTag_events (html : List Char) (m : MatchRec) :
    (onStartTag html m).1.filterMap restOf = [(onStartTag html m).2] := by
  unfold onStartTag
  simp [restOf]

theorem onStartTag_snd_suffix (html : List Char) (m : MatchRec) :
    (onStartTag html m).2 <:+ html := by
  unfold onStartTag
  exact List.drop_suffix _ _

theorem onTag_events (html : List Char) (tag data : List Char)
    (mk : List Char → List Char → List Char → Event)
    (hmk : ∀ a b c, restOf (mk a b c) = some c) :
    (onTag html tag data mk).1.filterMap restOf = [(onTag html tag data mk).2] := by
  unfold onTag
  simp [hmk]

theorem onTag_snd_suffix (html : List Char) (tag data : List Char)
    (mk : List Char → List Char → List Char → Event) :
    (onTag html tag data mk).2 <:+ html := by
  unfold onTag
  exact List.drop_suffix _ _

theorem dispatch_rests (me : List Char → RE) (rt : List Char → Bool)
    (html : List Char) :
    (dispatch me rt html).2 <:+ html ∧
    (∀ r ∈ (dispatch me rt html).1.filterMap restOf,
        r <:+ html ∧ (dispatch me rt html).2 <:+ r) ∧
    List.Chain' (fun a b => b <:+ a) ((dispatch me rt html).1.filterMap restOf) := by
  unfold dispatch
  by_cases hlt : html.head? = some '<'
  · rw [if_pos hlt]
    cases hs : anchoredMatch startTag html with
    | some m =>
      dsimp only
      by_cases hraw : rt ((getCap m.caps 1).getD []) = true
      · rw [if_pos hraw]
        dsimp only
        rw [List.filterMap_append, onStartTag_events]
        refine ⟨?_, ?_, ?_⟩
        · exact (onText_snd_suffix _ _ _).trans (onStartTag_snd_suffix html m)
        · intro r hr
          rcases List.mem_append.1 hr with hr | hr
          · rw [List.mem_singleton] at hr
            subst hr
            exact ⟨onStartTag_snd_suffix html m, onText_snd_suffix _ _ _⟩
          · rw [onText_rest_eq _ _ _ r hr]
            exact ⟨(onText_snd_suffix _ _ _).trans (onStartTag_snd_suffix html m),
              List.suffix_refl _⟩
        · rw [List.singleton_append, List.chain'_cons']
          refine ⟨?_, chain'_of_all_eq (onText_rest_eq _ _ _) (List.suffix_refl _)⟩
          intro y hy
          rw [onText_rest_eq _ _ _ y (List.mem_of_mem_head? hy)]
          exact onText_snd_suffix _ _ _
      · rw [if_neg hraw]
        rw [onStartTag_events]
        refine ⟨onStartTag_snd_suffix html m, ?_, List.chain'_singleton _⟩
        intro r hr
        rw [List.mem_singleton] at hr
        subst hr
        exact ⟨onStartTag_snd_suffix html m, List.suffix_refl _⟩
    | none =>
      dsimp only
      cases he : anchoredMatch endTag html with
      | some m =>
        rw [onTag_events html m.m0 (((getCap m.caps 1).getD []).map Char.toLower)
          Event.endTag (fun _ _ _ => rfl)]
        refine ⟨onTag_snd_suffix _ _ _ _, ?_, List.chain'_singleton _⟩
        intro r hr
        rw [List.mem_singleton] at hr
        subst hr
        exact ⟨onTag_snd_suffix _ _ _ _, List.suffix_refl _⟩
      | none =>
        dsimp only
        cases hc : anchoredMatch comment html with
        | some m =>
          rw [onTag_events html m.m0 ((getCap m.caps 1).getD [])
            Event.comment (fun _ _ _ => rfl)]
          refine ⟨onTag_snd_suffix _ _ _ _, ?_, List.chain'_singleton _⟩
          intro r hr
          rw [List.mem_singleton] at hr
          subst hr
          exact ⟨onTag_snd_suffix _ _ _ _, List.suffix_refl _⟩
        | none =>
          dsimp only
          cases ho : anchoredMatch other html with
          | some m =>
            rw [onTag_events html m.m0 ((getCap m.caps 1).getD [])
              Event.other (fun _ _ _ => rfl)]
            refine ⟨onTag_snd_suffix _ _ _ _, ?_, List.chain'_singleton _⟩
            intro r hr
            rw [List.mem_singleton] at hr
            subst hr
            exact ⟨onTag_snd_suffix _ _ _ _, List.suffix_refl _⟩
          | none =>
            refine ⟨onText_snd_suffix _ _ _, ?_,
              chain'_of_all_eq (onText_rest_eq _ _ _) (List.suffix_refl _)⟩
            intro r hr
            rw [onText_rest_eq _ _ _ r hr]
            exact ⟨onText_snd_suffix _ _ _, List.suffix_refl _⟩
  · rw [if_neg hlt]
    refine ⟨onText_snd_suffix _ _ _, ?_,
      chain'_of_all_eq (onText_rest_eq _ _ _) (List.suffix_refl _)⟩
    intro r hr
    rw [onText_rest_eq _ _ _ r hr]
    exact ⟨onText_snd_suffix _ _ _, List.suffix_refl _⟩

theorem parseLoop_rests (me : List Char → RE) (rt : List Char → Bool) (he : Bool) :
    ∀ (n : Nat) (html : List Char) (last : Option (List Char)),
    (∀ r ∈ (parseLoop me rt he n html last).1.filterMap restOf, r <:+ html) ∧
    List.Chain' (fun a b => b <:+ a)
      ((parseLoop me rt he n html last).1.filterMap restOf) := by
  intro n
  induction n with
  | zero =>
    intro html last
    simp [parseLoop]
  | succ n ih =>
    intro html last
    simp only [parseLoop]
    by_cases hemp : html.isEmpty
    · rw [if_pos hemp]
      simp
    · rw [if_neg hemp]
      have hd := dispatch_rests me rt html
      have hrec := ih (dispatch me rt html).2 (some html)
      have key : (∀ r ∈ ((dispatch me rt html).1 ++
            (parseLoop me rt he n (dispatch me rt html).2 (some html)).1).filterMap restOf,
            r <:+ html) ∧
          List.Chain' (fun a b => b <:+ a)
            (((dispatch me rt html).1 ++
              (parseLoop me rt he n (dispatch me rt html).2 (some html)).1).filterMap
              restOf) := by
        rw [List.filterMap_append]
        constructor
        · intro r hr
          rcases List.mem_append.1 hr with hr | hr
          · exact (hd.2.1 r hr).1
          · exact (hrec.1 r hr).trans hd.1
        · refine (hd.2.2).append hrec.2 ?_
          intro x hx y hy
          exact (hrec.1 y (List.mem_of_mem_head? hy)).trans
            (hd.2.1 x (List.mem_of_getLast?_eq_some hx)).2
      by_cases hlast : last = some html
      · rw [if_pos hlast]
        by_cases hhe : he = true
        · subst hhe
          rw [if_pos rfl]
          simpa only [List.filterMap_cons, restOf] using key
        · rw [if_neg hhe]
          simp
      · rw [if_neg hlast]
        exact key

theorem parseLoop_fuel_mono (me : List Char → RE) (rt : List Char → Bool) (he : Bool) :
    ∀ (n : Nat) (html : List Char) (last : Option (List Char)) (evs : List Event)
      (out : Outcome),
    parseLoop me rt he n html last = (evs, out) → out ≠ Outcome.outOfFuel →
    ∀ m, n ≤ m → parseLoop me rt he m html last = (evs, out) := by
  intro n
  induction n with
  | zero =>
    intro html last evs out h hout m hm
    simp only [parseLoop] at h
    injection h with _ h2
    exact absurd h2.symm hout
  | succ n ih =>
    intro html last evs out h hout m hm
    cases m with
    | zero => omega
    | succ m' =>
      have hm' : n ≤ m' := Nat.le_of_succ_le_succ hm
      simp only [parseLoop] at h ⊢
      by_cases hemp : html.isEmpty
      · rw [if_pos hemp] at h ⊢
        exact h
      · rw [if_neg hemp] at h ⊢
        by_cases hlast : last = some html
        · rw [if_pos hlast] at h ⊢
          by_cases hhe : he = true
          · subst hhe
            rw [if_pos rfl] at h ⊢
            injection h with h1 h2
            have hrec := ih (dispatch me rt html).2 (some html)
              (parseLoop me rt true n (dispatch me rt html).2 (some html)).1
              (parseLoop me rt true n (dispatch me rt html).2 (some html)).2
              rfl (by rw [h2]; exact hout) m' hm'
            rw [hrec, h1, h2]
          · rw [if_neg hhe] at h ⊢
            exact h
        · rw [if_neg hlast] at h ⊢
          injection h with h1 h2
          have hrec := ih (dispatch me rt html).2 (some html)
            (parseLoop me rt he n (dispatch me rt html).2 (some html)).1
            (parseLoop me rt he n (dispatch me rt html).2 (some html)).2
            rfl (by rw [h2]; exact hout) m' hm'
          rw [hrec, h1, h2]

theorem parseLoop_terminates_noerror (me : List Char → RE) (rt : List Char → Bool) :
    ∀ (len : Nat) (html : List Char), html.length ≤ len →
    ∀ last, ∃ n, (parseLoop me rt false n html last).2 ≠ Outcome.outOfFuel := by
  intro len
  induction len with
  | zero =>
    intro html hlen last
    have hnil : html = [] := List.length_eq_zero.1 (Nat.le_zero.1 hlen)
    subst hnil
    exact ⟨1, by simp [parseLoop]⟩
  | succ len ih =>
    intro html hlen last
    by_cases hemp : html.isEmpty
    · refine ⟨1, ?_⟩
      simp only [parseLoop]
      rw [if_pos hemp]
      simp
    · by_cases hlast : last = some html
      · refine ⟨1, ?_⟩
        simp only [parseLoop]
        rw [if_neg hemp, if_pos hlast, if_neg (by simp)]
        simp
      · by_cases heq : (dispatch me rt html).2 = html
        · refine ⟨2, ?_⟩
          simp only [parseLoop]
          rw [if_neg hemp, if_neg hlast, heq, if_neg hemp, if_pos rfl, if_neg (by simp)]
          simp
        · have hsuf := (dispatch_rests me rt html).1
          have hlt : (dispatch me rt html).2.length < html.length := by
            rcases Nat.lt_or_ge (dispatch me rt html).2.length html.length with h | h
            · exact h
            · exact absurd (hsuf.eq_of_length (Nat.le_antisymm hsuf.length_le h)) heq
          obtain ⟨n, hn⟩ := ih (dispatch me rt html).2 (by omega) (some html)
          refine ⟨n+1, ?_⟩
          simp only [parseLoop]
          rw [if_neg hemp, if_neg hlast]
          exact hn

theorem startTag_second_char {html : List Char} {m : MatchRec}
    (h : anchoredMatch startTag html = some m) :
    ∃ c t, html = '<' :: c :: t ∧ startNameChar c = true := by
  obtain ⟨r, hr, _⟩ := anchoredMatch_some_mem h
  unfold startTag at hr
  obtain ⟨ra, hra, rb, hrb, _⟩ := mem_matchList_seq.1 hr
  obtain ⟨c0, t0, rfl, hc0, rfl⟩ := mem_matchList_cls.1 hra
  obtain ⟨rc, hrc, _, _, _⟩ := mem_matchList_seq.1 hrb
  obtain ⟨rd, hrd, rfl⟩ := mem_matchList_group.1 hrc
  unfold rePlus at hrd
  obtain ⟨re1, hre1, _, _, _⟩ := mem_matchList_seq.1 hrd
  obtain ⟨c1, t1, rfl, hc1, rfl⟩ := mem_matchList_cls.1 hre1
  exact ⟨c1, t1, by rw [eq_of_beq hc0], hc1⟩

theorem endTag_shape {html : List Char} {m : MatchRec}
    (h : anchoredMatch endTag html = some m) :
    ∃ t, html = '<' :: '/' :: t := by
  obtain ⟨r, hr, _⟩ := anchoredMatch_some_mem h
  unfold endTag at hr
  obtain ⟨ra, hra, rb, hrb, _⟩ := mem_matchList_seq.1 hr
  obtain ⟨c0, t0, rfl, hc0, rfl⟩ := mem_matchList_cls.1 hra
  obtain ⟨rc, hrc, _, _, _⟩ := mem_matchList_seq.1 hrb
  obtain ⟨c1, t1, rfl, hc1, rfl⟩ := mem_matchList_cls.1 hrc
  exact ⟨t1, by rw [eq_of_beq hc0, eq_of_beq hc1]⟩

theorem comment_shape {html : List Char} {m : MatchRec}
    (h : anchoredMatch comment html = some m) :
    ∃ t, html = '<' :: '!' :: t := by
  obtain ⟨r, hr, _⟩ := anchoredMatch_some_mem h
  unfold comment at hr
  obtain ⟨ra, hra, rb, hrb, _⟩ := mem_matchList_seq.1 hr
  obtain ⟨c0, t0, rfl, hc0, rfl⟩ := mem_matchList_cls.1 hra
  obtain ⟨rc, hrc, _, _, _⟩ := mem_matchList_seq.1 hrb
  rw [show reLit "!--".data = .seq (.cls fun x => x == '!')
      (.seq (.cls fun x => x == '-') (.seq (.cls fun x => x == '-') .eps)) from rfl] at hrc
  obtain ⟨rd, hrd, _, _, _⟩ := mem_matchList_seq.1 hrc
  obtain ⟨c1, t1, rfl, hc1, rfl⟩ := mem_matchList_cls.1 hrd
  exact ⟨t1, by rw [eq_of_beq hc0, eq_of_beq hc1]⟩

theorem startTag_none_of_endTag {html : List Char} {m : MatchRec}
    (h : anchoredMatch endTag html = some m) :
    anchoredMatch startTag html = none := by
  cases hs : anchoredMatch startTag html with
  | none => rfl
  | some m' =>
    obtain ⟨c, t, heq, hc⟩ := startTag_second_char hs
    obtain ⟨t', heq'⟩ := endTag_shape h
    rw [heq'] at heq
    injection heq with _ heq
    injection heq with hc' _
    rw [← hc'] at hc
    exact absurd hc (by decide)

theorem startTag_none_of_comment {html : List Char} {m : MatchRec}
    (h : anchoredMatch comment html = some m) :
    anchoredMatch startTag html = none := by
  cases hs : anchoredMatch startTag html with
  | none => rfl
  | some m' =>
    obtain ⟨c, t, heq, hc⟩ := startTag_second_char hs
    obtain ⟨t', heq'⟩ := comment_shape h
    rw [heq'] at heq
    injection heq with _ heq
    injection heq with hc' _
    rw [← hc'] at hc
    exact absurd hc (by decide)

theorem endTag_none_of_comment {html : List Char} {m : MatchRec}
    (h : anchoredMatch comment html = some m) :
    anchoredMatch endTag html = none := by
  cases hs : anchoredMatch endTag html with
  | none => rfl
  | some m' =>
    obtain ⟨t, heq⟩ := comment_shape h
    obtain ⟨t', heq'⟩ := endTag_shape hs
    rw [heq'] at heq
    injection heq with _ heq
    injection heq with hc' _
    exact absurd hc' (by decide)

theorem dispatch_stray_bracket :
    dispatch matchEndDefault rawTagsDefault ['<'] = ([], ['<']) := by decide

theorem parseLoop_stall_forever :
    ∀ (n : Nat) (last : Option (List Char)),
    last = none ∨ last = some ['<'] →
    (parseLoop matchEndDefault rawTagsDefault true n ['<'] last).2 =
      Outcome.outOfFuel := by
  intro n
  induction n with
  | zero =>
    intro last _
    simp [parseLoop]
  | succ n ih =>
    intro last hlast
    simp only [parseLoop]
    rw [if_neg (by simp)]
    rcases hlast with rfl | rfl
    · rw [if_neg (by simp), dispatch_stray_bracket]
      exact ih (some ['<']) (Or.inr rfl)
    · rw [if_pos rfl, if_pos trivial, dispatch_stray_bracket]
      exact ih (some ['<']) (Or.inr rfl)

theorem objLookup_map_ne (k : List Char) (v : Option (List Char)) :
    ∀ (t : List (List Char × Option (List Char))) (k' : List Char), k' ≠ k →
    objLookup (t.map fun p => if p.1 == k then (k, v) else p) k' = objLookup t k' := by
  intro t
  induction t with
  | nil => intro k' _; rfl
  | cons b r ih =>
    intro k' hne
    by_cases hb : (b.1 == k) = true
    · have hbk : b.1 = k := eq_of_beq hb
      have h1 : (k == k') = false := beq_eq_false_iff_ne.2 fun hh => hne hh.symm
      have h2 : (b.1 == k') = false :=
        beq_eq_false_iff_ne.2 fun hh => hne (hh.symm.trans hbk)
      simp only [objLookup, List.map_cons, if_pos hb]
      rw [List.find?_cons_of_neg _ (by simp [h1]),
        List.find?_cons_of_neg _ (by simp [h2])]
      exact ih k' hne
    · simp only [objLookup, List.map_cons, if_neg hb]
      by_cases hbk' : (b.1 == k') = true
      · rw [List.find?_cons_of_pos _ (by simp [hbk']),
          List.find?_cons_of_pos _ (by simp [hbk'])]
      · rw [List.find?_cons_of_neg _ (by simp [hbk']),
          List.find?_cons_of_neg _ (by simp [hbk'])]
        exact ih k' hne

theorem objLookup_map_hit (k : List Char) (v : Option (List Char)) :
    ∀ (t : List (List Char × Option (List Char))),
    (t.any fun p => p.1 == k) = true →
    objLookup (t.map fun p => if p.1 == k then (k, v) else p) k = some v := by
  intro t
  induction t with
  | nil => intro h; simp at h
  | cons b r ih =>
    intro h
    by_cases hb : (b.1 == k) = true
    · simp only [objLookup, List.map_cons, if_pos hb]
      rw [List.find?_cons_of_pos _ (by simp)]
      rfl
    · simp only [objLookup, List.map_cons, if_neg hb]
      rw [List.find?_cons_of_neg _ (by simp [hb])]
      simp only [List.any_cons, hb, Bool.false_or] at h
      exact ih h

theorem objLookup_objInsert (l : List (List Char × Option (List Char)))
    (k : List Char) (v : Option (List Char)) (k' : List Char) :
    objLookup (objInsert l k v) k' = if k' = k then some v else objLookup l k' := by
  unfold objInsert
  by_cases hany : (l.any fun p => p.1 == k) = true
  · rw [if_pos hany]
    by_cases hk : k' = k
    · subst hk
      rw [if_pos rfl]
      exact objLookup_map_hit k' v l hany
    · rw [if_neg hk]
      exact objLookup_map_ne k v l k' hk
  · rw [if_neg hany]
    unfold objLookup
    rw [List.find?_append]
    by_cases hk : k' = k
    · subst hk
      have hnone : l.find? (fun p => p.1 == k') = none := by
        rw [List.find?_eq_none]
        intro p hp
        intro hpk
        exact hany (List.any_eq_true.2 ⟨p, hp, hpk⟩)
      rw [hnone, if_pos rfl]
      simp
    · rw [if_neg hk]
      have h1 : ((k, v).1 == k') = false := beq_eq_false_iff_ne.2 fun hh => hk hh.symm
      cases hl : l.find? fun p => p.1 == k' with
      | some p => simp [objLookup, hl]
      | none => simp [objLookup, hl, h1]

theorem foldl_objAssign_lookup_ne (key : MatchRec → List Char)
    (decode : MatchRec → Option (List Char)) :
    ∀ (ms : List MatchRec) (st : List (List Char × Option (List Char)) × Bool)
      (k : List Char), k ≠ protoKey →
    objLookup ((ms.foldl (fun st m => objAssign st (key m) (decode m)) st).1) k =
      match ms.reverse.find? fun m => key m == k with
      | some m => some (decode m)
      | none => objLookup st.1 k := by
  intro ms
  induction ms with
  | nil => intro st k _; rfl
  | cons m rest ih =>
    intro st k hk
    simp only [List.foldl_cons, List.reverse_cons, List.find?_append]
    rw [ih _ _ hk]
    cases hf : rest.reverse.find? fun m' => key m' == k with
    | some m' => simp
    | none =>
      simp only [Option.none_or]
      unfold objAssign
      by_cases hkm : (key m == k) = true
      · have hkm' : key m = k := eq_of_beq hkm
        have hcond : (key m == protoKey && st.2) = false := by
          have hne : (key m == protoKey) = false :=
            beq_eq_false_iff_ne.2 (by rw [hkm']; exact hk)
          simp [hne]
        rw [if_neg (by simp [hcond])]
        rw [List.find?_cons_of_pos _ (by simp [hkm])]
        dsimp only
        rw [objLookup_objInsert, if_pos hkm'.symm]
      · rw [List.find?_cons_of_neg _ (by simp [hkm])]
        by_cases hpp : (key m == protoKey && st.2) = true
        · rw [if_pos hpp]
          cases decode m <;> rfl
        · rw [if_neg hpp]
          dsimp only
          rw [objLookup_objInsert,
            if_neg fun hh => absurd (beq_iff_eq.2 hh.symm) (by simp [hkm])]
          rfl

theorem foldl_objAssign_proto_drop (key : MatchRec → List Char)
    (decode : MatchRec → Option (List Char)) :
    ∀ (ms : List MatchRec) (st : List (List Char × Option (List Char)) × Bool),
    objLookup st.1 protoKey = none → st.2 = true →
    (∀ m ∈ ms, key m = protoKey → decode m ≠ none) →
    objLookup ((ms.foldl (fun st m => objAssign st (key m) (decode m)) st).1)
      protoKey = none := by
  intro ms
  induction ms with
  | nil => intro st h1 _ _; exact h1
  | cons m rest ih =>
    intro st h1 h2 h3
    simp only [List.foldl_cons]
    by_cases hkm : key m = protoKey
    · have hd : decode m ≠ none := h3 m (List.mem_cons_self m rest) hkm
      have hcond : (key m == protoKey && st.2) = true := by
        simp [hkm, h2]
      apply ih
      · unfold objAssign
        rw [if_pos hcond]
        cases hdm : decode m with
        | some v => exact h1
        | none => exact absurd hdm hd
      · unfold objAssign
        rw [if_pos hcond]
        cases hdm : decode m with
        | some v => exact h2
        | none => exact absurd hdm hd
      · intro m' hm' hk'
        exact h3 m' (List.mem_cons_of_mem m hm') hk'
    · have hcond : (key m == protoKey && st.2) = false := by
        simp [beq_eq_false_iff_ne.2 hkm]
      apply ih
      · unfold objAssign
        rw [if_neg (by simp [hcond])]
        dsimp only
        rw [objLookup_objInsert, if_neg fun hh => hkm hh.symm]
        exact h1
      · unfold objAssign
        rw [if_neg (by simp [hcond])]
        exact h2
      · intro m' hm' hk'
        exact h3 m' (List.mem_cons_of_mem m hm') hk'

theorem jsMatchAllF_mem {re : RE} : ∀ (fuel : Nat) (s : List Char) (m : MatchRec),
    m ∈ jsMatchAllF re fuel s →
    ∃ s' r, r ∈ matchList re s' ∧ m.caps = r.1 := by
  intro fuel
  induction fuel with
  | zero =>
    intro s m h
    simp [jsMatchAllF] at h
  | succ fuel ih =>
    intro s m h
    simp only [jsMatchAllF] at h
    cases hf : firstMatchPos re s with
    | none =>
      rw [hf] at h
      simp at h
    | some p =>
      obtain ⟨i, mm⟩ := p
      rw [hf] at h
      dsimp only at h
      have hA := (firstMatchPos_anchored hf).1
      obtain ⟨r, hr, hmeq⟩ := anchoredMatch_some_mem hA
      by_cases hlen : s.length < i + max mm.m0.length 1
      · rw [if_pos hlen] at h
        rw [List.mem_singleton] at h
        subst h
        exact ⟨s.drop i, r, hr, by rw [hmeq]⟩
      · rw [if_neg hlen] at h
        rcases List.mem_cons.1 h with rfl | h
        · exact ⟨s.drop i, r, hr, by rw [hmeq]⟩
        · exact ih _ _ h

theorem jsMatchAll_mem {re : RE} {s : List Char} {m : MatchRec}
    (h : m ∈ jsMatchAll re s) :
    ∃ s' r, r ∈ matchList re s' ∧ m.caps = r.1 :=
  jsMatchAllF_mem _ _ _ h

theorem buildAttrs_lookup_ne (rem : List Char) (k : List Char) (hk : k ≠ protoKey) :
    objLookup (buildAttrs rem) k =
      ((jsMatchAll attr rem).reverse.find? fun m =>
        ((getCap m.caps 1).getD []).map Char.toLower == k).map
        fun m => attrValue m.caps := by
  unfold buildAttrs
  rw [foldl_objAssign_lookup_ne (fun m => ((getCap m.caps 1).getD []).map Char.toLower)
    (fun m => attrValue m.caps) _ _ _ hk]
  cases hf : (jsMatchAll attr rem).reverse.find? fun m =>
      ((getCap m.caps 1).getD []).map Char.toLower == k with
  | some m => rfl
  | none => rfl

theorem attrValue_spec_of_caps (caps : Caps)
    (h2 : getCap caps 2 = none ∨ ∃ w, getCap caps 2 = some w ∧ w ≠ [])
    (h3 : getCap caps 3 ≠ none →
      getCap caps 4 = none ∧ getCap caps 5 = none ∧
        ∃ w, getCap caps 2 = some w ∧ w ≠ [])
    (h4 : getCap caps 4 ≠ none →
      getCap caps 5 = none ∧ ∃ w, getCap caps 2 = some w ∧ w ≠ [])
    (h5 : ∀ v, getCap caps 5 = some v → v ≠ []) :
    attrValue caps = specAttrDecode caps := by
  unfold attrValue specAttrDecode
  cases hc3 : getCap caps 3 with
  | some v =>
    obtain ⟨hc4, hc5, w, hc2, hw⟩ := h3 (by simp [hc3])
    have hwt : jsTruthy (some w) = true := by
      cases w
      · exact absurd rfl hw
      · rfl
    by_cases hv : v = []
    · subst hv
      rw [hc4, hc5, hc2]
      simp [jsOrStr, jsTruthy, hwt, hw]
    · have hvt : jsTruthy (some v) = true := by
        cases v
        · exact absurd rfl hv
        · rfl
      simp [jsOrStr, hvt, hv]
  | none =>
    cases hc4 : getCap caps 4 with
    | some v =>
      obtain ⟨hc5, w, hc2, hw⟩ := h4 (by simp [hc4])
      have hwt : jsTruthy (some w) = true := by
        cases w
        · exact absurd rfl hw
        · rfl
      by_cases hv : v = []
      · subst hv
        rw [hc5, hc2]
        simp [jsOrStr, jsTruthy, hwt, hw]
      · have hvt : jsTruthy (some v) = true := by
          cases v
          · exact absurd rfl hv
          · rfl
        simp [jsOrStr, jsTruthy, hvt, hv]
    | none =>
      cases hc5 : getCap caps 5 with
      | some v =>
        have hvne := h5 _ hc5
        have hvt : jsTruthy (some v) = true := by
          cases v
          · exact absurd rfl hvne
          · rfl
        simp [jsOrStr, jsTruthy, hvt, hvne]
      | none =>
        rcases h2 with hc2 | ⟨w, hc2, hw⟩
        · rw [hc2]
          simp [jsOrStr, jsTruthy]
        · have hwt : jsTruthy (some w) = true := by
            cases w
            · exact absurd rfl hw
            · rfl
          rw [hc2]
          simp [jsOrStr, jsTruthy, hwt, hw]

theorem attr_tail_caps {s' : List Char} {rb : Caps × List Char}
    (h : rb ∈ matchList (.opt true (.seq (.star true (.cls jsIsWs))
             (.seq (.group 2 (.cls fun c => c == '='))
             (.seq (.star true (.cls jsIsWs))
                   (.opt true
                     (.alt (.seq (.cls fun c => c == '"')
                           (.seq (.group 3 (.star true (attrEsc '"')))
                                 (.cls fun c => c == '"')))
                     (.alt (.seq (.cls fun c => c == squote)
                           (.seq (.group 4 (.star true (attrEsc squote)))
                                 (.cls fun c => c == squote)))
                           (.group 5 (rePlus (.cls unquotedChar)))))))))) s') :
    rb.1 = [] ∨
    ∃ w vcaps, w ≠ [] ∧ rb.1 = vcaps ++ [(2, w)] ∧
      (vcaps = [] ∨ (∃ v, vcaps = [(3, v)]) ∨ (∃ v, vcaps = [(4, v)]) ∨
        ∃ v, vcaps = [(5, v)] ∧ v ≠ []) := by
  rcases mem_matchList_opt.1 h with htail | heq
  · right
    obtain ⟨s1, hs1, s2, hs2, rfl⟩ := mem_matchList_seq.1 htail
    have hs1c : s1.1 = [] := matchList_groupFree_caps _ (by rfl) _ _ hs1
    obtain ⟨g2, hg2, s3, hs3, rfl⟩ := mem_matchList_seq.1 hs2
    obtain ⟨rg, hrg, rfl⟩ := mem_matchList_group.1 hg2
    obtain ⟨cE, tE, hEq, hcE, rfl⟩ := mem_matchList_cls.1 hrg
    obtain ⟨s4, hs4, s5, hs5, rfl⟩ := mem_matchList_seq.1 hs3
    have hs4c : s4.1 = [] := matchList_groupFree_caps _ (by rfl) _ _ hs4
    have hw : s1.2.take (s1.2.length - tE.length) ≠ [] := by
      rw [hEq, List.length_cons]
      have h1 : tE.length + 1 - tE.length = 1 := by omega
      rw [h1]
      simp
    refine ⟨s1.2.take (s1.2.length - tE.length), s5.1, hw, ?_, ?_⟩
    · simp [mergeCaps, hs1c, hs4c]
    · rcases mem_matchList_opt.1 hs5 with hval | heq5
      · rcases mem_matchList_alt.1 hval with hD | hSU
        · right
          left
          obtain ⟨d1, hd1, d2, hd2, rfl⟩ := mem_matchList_seq.1 hD
          obtain ⟨cq, tq, hEq2, hcq, rfl⟩ := mem_matchList_cls.1 hd1
          obtain ⟨g3, hg3, d3, hd3, rfl⟩ := mem_matchList_seq.1 hd2
          obtain ⟨rg3, hrg3, rfl⟩ := mem_matchList_group.1 hg3
          have hrg3c : rg3.1 = [] := matchList_groupFree_caps _ (by rfl) _ _ hrg3
          obtain ⟨cq2, tq2, hEq3, hcq2, rfl⟩ := mem_matchList_cls.1 hd3
          exact ⟨List.take (tq.length - rg3.2.length) tq, by simp [mergeCaps, hrg3c]⟩
        · rcases mem_matchList_alt.1 hSU with hS | hU
          · right
            right
            left
            obtain ⟨d1, hd1, d2, hd2, rfl⟩ := mem_matchList_seq.1 hS
            obtain ⟨cq, tq, hEq2, hcq, rfl⟩ := mem_matchList_cls.1 hd1
            obtain ⟨g4, hg4, d3, hd3, rfl⟩ := mem_matchList_seq.1 hd2
            obtain ⟨rg4, hrg4, rfl⟩ := mem_matchList_group.1 hg4
            have hrg4c : rg4.1 = [] := matchList_groupFree_caps _ (by rfl) _ _ hrg4
            obtain ⟨cq2, tq2, hEq3, hcq2, rfl⟩ := mem_matchList_cls.1 hd3
            exact ⟨List.take (tq.length - rg4.2.length) tq, by simp [mergeCaps, hrg4c]⟩
          · right
            right
            right
            obtain ⟨rg5, hrg5, rfl⟩ := mem_matchList_group.1 hU
            have hrg5c : rg5.1 = [] := matchList_groupFree_caps _ (by rfl) _ _ hrg5
            unfold rePlus at hrg5
            have hlt := matchList_seq_cls_lt hrg5
            refine ⟨List.take (s4.2.length - rg5.2.length) s4.2, by simp [hrg5c], ?_⟩
            have hpos : 0 < (s4.2.take (s4.2.length - rg5.2.length)).length := by
              rw [List.length_take]
              omega
            exact List.ne_nil_of_length_pos hpos
      · left
        rw [heq5]
  · left
    rw [heq]

theorem getCap_nil {i : Nat} : getCap ([] : Caps) i = none := rfl

theorem getCap_cons_ne {j : Nat} {x : List Char} {c : Caps} {i : Nat}
    (h : (j == i) = false) : getCap ((j, x) :: c) i = getCap c i := by
  unfold getCap
  rw [List.find?_cons_of_neg _ (by simp [h])]

theorem getCap_cons_eq {j : Nat} {x : List Char} {c : Caps} :
    getCap ((j, x) :: c) j = some x := by
  unfold getCap
  rw [List.find?_cons_of_pos _ (by simp)]
  rfl

theorem attrValue_eq_specAttrDecode {s : List Char} {r : Caps × List Char}
    (h : r ∈ matchList attr s) : attrValue r.1 = specAttrDecode r.1 := by
  unfold attr at h
  obtain ⟨ra, hra, rb, hrb, rfl⟩ := mem_matchList_seq.1 h
  obtain ⟨rn, hrn, rfl⟩ := mem_matchList_group.1 hra
  have hrn1 : rn.1 = [] := matchList_groupFree_caps _ (by rfl) _ _ hrn
  have htail := attr_tail_caps hrb
  rcases htail with hnil | ⟨w, vcaps, hw, hshape, hvc⟩
  · apply attrValue_spec_of_caps
    · left
      simp [mergeCaps, hrn1, hnil, getCap_cons_ne, getCap_nil]
    · intro hc
      exact absurd (by simp [mergeCaps, hrn1, hnil, getCap_cons_ne, getCap_nil]) hc
    · intro hc
      exact absurd (by simp [mergeCaps, hrn1, hnil, getCap_cons_ne, getCap_nil]) hc
    · intro v hv
      rw [show (mergeCaps ((1, s.take (s.length - rn.2.length)) :: rn.1) rb.1) =
        [(1, s.take (s.length - rn.2.length))] by simp [mergeCaps, hrn1, hnil]] at hv
      rw [getCap_cons_ne (by decide)] at hv
      exact absurd hv (by simp [getCap])
  · have hcaps : mergeCaps ((1, s.take (s.length - rn.2.length)) :: rn.1) rb.1 =
        vcaps ++ (2, w) :: [(1, s.take (s.length - rn.2.length))] := by
      simp [mergeCaps, hrn1, hshape]
    rcases hvc with hvnil | ⟨v, hv3⟩ | ⟨v, hv4⟩ | ⟨v, hv5, hvne⟩
    · subst hvnil
      rw [hcaps]
      simp only [List.nil_append]
      apply attrValue_spec_of_caps
      · right
        exact ⟨w, getCap_cons_eq, hw⟩
      · intro hc
        exact absurd (by rw [getCap_cons_ne (by decide), getCap_cons_ne (by decide)]; rfl) hc
      · intro hc
        exact absurd (by rw [getCap_cons_ne (by decide), getCap_cons_ne (by decide)]; rfl) hc
      · intro v hv
        rw [getCap_cons_ne (by decide), getCap_cons_ne (by decide)] at hv
        exact absurd hv (by simp [getCap])
    · subst hv3
      rw [hcaps]
      simp only [List.cons_append, List.nil_append]
      apply attrValue_spec_of_caps
      · right
        refine ⟨w, ?_, hw⟩
        rw [getCap_cons_ne (by decide)]
        exact getCap_cons_eq
      · intro _
        refine ⟨?_, ?_, w, ?_, hw⟩
        · rw [getCap_cons_ne (by decide), getCap_cons_ne (by decide),
            getCap_cons_ne (by decide)]
          rfl
        · rw [getCap_cons_ne (by decide), getCap_cons_ne (by decide),
            getCap_cons_ne (by decide)]
          rfl
        · rw [getCap_cons_ne (by decide)]
          exact getCap_cons_eq
      · intro hc
        exact absurd (by rw [getCap_cons_ne (by decide), getCap_cons_ne (by decide),
          getCap_cons_ne (by decide)]; rfl) hc
      · intro v' hv'
        rw [getCap_cons_ne (by decide), getCap_cons_ne (by decide),
          getCap_cons_ne (by decide)] at hv'
        exact absurd hv' (by simp [getCap])
    · subst hv4
      rw [hcaps]
      simp only [List.cons_append, List.nil_append]
      apply attrValue_spec_of_caps
      · right
        refine ⟨w, ?_, hw⟩
        rw [getCap_cons_ne (by decide)]
        exact getCap_cons_eq
      · intro hc
        exact absurd (by rw [getCap_cons_ne (by decide), getCap_cons_ne (by decide),
          getCap_cons_ne (by decide)]; rfl) hc
      · intro _
        refine ⟨?_, w, ?_, hw⟩
        · rw [getCap_cons_ne (by decide), getCap_cons_ne (by decide),
            getCap_cons_ne (by decide)]
          rfl
        · rw [getCap_cons_ne (by decide)]
          exact getCap_cons_eq
      · intro v' hv'
        rw [getCap_cons_ne (by decide), getCap_cons_ne (by decide),
          getCap_cons_ne (by decide)] at hv'
        exact absurd hv' (by simp [getCap])
    · subst hv5
      rw [hcaps]
      simp only [List.cons_append, List.nil_append]
      apply attrValue_spec_of_caps
      · right
        refine ⟨w, ?_, hw⟩
        rw [getCap_cons_ne (by decide)]
        exact getCap_cons_eq
      · intro hc
        exact absurd (by rw [getCap_cons_ne (by decide), getCap_cons_ne (by decide),
          getCap_cons_ne (by decide)]; rfl) hc
      · intro hc
        exact absurd (by rw [getCap_cons_ne (by decide), getCap_cons_ne (by decide),
          getCap_cons_ne (by decide)]; rfl) hc
      · intro v' hv'
        rw [getCap_cons_eq] at hv'
        injection hv' with hv'
        rw [← hv']
        exact hvne

/-- Claim C1: for every well-formed input, on which parse completes without
the stalled-progress error, the concatenation of the full matched text of
every start, end, comment and other callback together with the text content
of every text callback, in callback-invocation order, equals the original
input exactly, with no gaps and no overlaps. -/
theorem c1_span_coverage (n : Nat) (html : List Char) (o : Options)
    (evs : List Event) (h : parse n html o = (evs, Outcome.done))
    (hnoerr : ∀ r, Event.error r ∉ evs) :
    (evs.map emittedText).flatten = html := by
  unfold parse at h
  by_cases hemp : html.isEmpty
  · rw [if_pos hemp] at h
    injection h with h1 _
    subst h1
    rw [List.isEmpty_iff.1 hemp]
    rfl
  · rw [if_neg hemp] at h
    exact parseLoop_concat _ _ _ n html none evs h

/-- Witness for C1 at a concrete input. -/
theorem c1_span_coverage_witness :
    (([Event.start "<a>".data "a".data [] "hi</a>".data,
       Event.text "hi".data false "</a>".data,
       Event.endTag "</a>".data "a".data []].map emittedText)).flatten =
      "<a>hi</a>".data :=
  c1_span_coverage 10 "<a>hi</a>".data {}
    [Event.start "<a>".data "a".data [] "hi</a>".data,
     Event.text "hi".data false "</a>".data,
     Event.endTag "</a>".data "a".data []]
    (by decide) (by intro r hr; simp at hr)

/-- Claim C2: when the remaining input opens with a bracket the dispatcher
tries the startTag, endTag, comment and other decoders in that fixed order
and fires exactly one callback for the first decoder that matches; an end
tag or a comment at the front of the input is never delivered to the other
callback, because the earlier decoders are mutually exclusive with the
startTag decoder. -/
theorem c2_dispatch_priority (me : List Char → RE) (rt : List Char → Bool)
    (html : List Char) (hlt : html.head? = some '<') :
    (∀ m, anchoredMatch startTag html = some m →
      (dispatch me rt html).1.head? = some (Event.start m.m0
        (((getCap m.caps 1).getD []).map Char.toLower)
        (buildAttrs ((getCap m.caps 2).getD [])) (html.drop m.m0.length))) ∧
    (∀ m, anchoredMatch endTag html = some m →
      (dispatch me rt html).1 = [Event.endTag m.m0
        (((getCap m.caps 1).getD []).map Char.toLower) (html.drop m.m0.length)]) ∧
    (∀ m, anchoredMatch comment html = some m →
      (dispatch me rt html).1 = [Event.comment m.m0 ((getCap m.caps 1).getD [])
        (html.drop m.m0.length)]) ∧
    (anchoredMatch startTag html = none → anchoredMatch endTag html = none →
      anchoredMatch comment html = none →
      ∀ m, anchoredMatch other html = some m →
      (dispatch me rt html).1 = [Event.other m.m0 ((getCap m.caps 1).getD [])
        (html.drop m.m0.length)]) := by
  refine ⟨?_, ?_, ?_, ?_⟩
  · intro m hm
    unfold dispatch
    rw [if_pos hlt, hm]
    dsimp only
    by_cases hraw : rt ((getCap m.caps 1).getD []) = true
    · rw [if_pos hraw]
      unfold onStartTag
      dsimp only
      rw [List.singleton_append]
      rfl
    · rw [if_neg hraw]
      unfold onStartTag
      rfl
  · intro m hm
    unfold dispatch
    rw [if_pos hlt, startTag_none_of_endTag hm, hm]
    dsimp only
    unfold onTag
    rfl
  · intro m hm
    unfold dispatch
    rw [if_pos hlt, startTag_none_of_comment hm, endTag_none_of_comment hm, hm]
    dsimp only
    unfold onTag
    rfl
  · intro h1 h2 h3 m hm
    unfold dispatch
    rw [if_pos hlt, h1, h2, h3, hm]
    dsimp only
    unfold onTag
    rfl

/-- Witness for C2: an end tag at the front is delivered to the end
callback, not the other callback. -/
theorem c2_dispatch_priority_witness :
    (dispatch matchEndDefault rawTagsDefault "</a>x".data).1 =
      [Event.endTag "</a>".data "a".data "x".data] :=
  ((c2_dispatch_priority matchEndDefault rawTagsDefault "</a>x".data
      (by decide)).2.1 ⟨"</a>".data, [(1, "a".data)], "x".data⟩ (by decide)).trans
    (by decide)

/-- Claim C3 counterexample: after the raw-text scanner has skipped a
comment and no end-matcher occurrence remains, the returned value is the
accumulated offset minus one, which is not treated as not-found, so the
raw text unit emitted is not the whole remaining input: the scanner
returns 14 on an input whose post-comment remainder has no match
(search gives minus one), and the parse of the corresponding script block
emits only the first 14 characters as the raw text unit. -/
theorem c3_rawEnd_notfound_counterexample :
    rawEnd "<!--</script-->xy".data (matchEndDefault "script".data) 0 = 14 ∧
    jsSearch (matchEndDefault "script".data)
      ("<!--</script-->xy".data.drop 15) = -1 ∧
    (parse 10 "<script><!--</script-->xy".data {}).1 =
      [Event.start "<script>".data "script".data [] "<!--</script-->xy".data,
       Event.text "<!--</script--".data true ">xy".data,
       Event.text ">xy".data false []] ∧
    "<!--</script--".data ≠ "<!--</script-->xy".data :=
  ⟨by decide, by decide, by decide, by decide⟩

/-- Claim C3, amended: the scanner searches for the ending; if the first
comment starts strictly before the found index it skips past the entire
comment, accumulates the skipped offset and repeats; otherwise it returns
the search result (the offset of the first literal end-matcher occurrence,
regardless of any language quoting) plus the accumulated offset — so after
at least one comment skip a failed search yields the accumulated offset
minus one, a found position, rather than a not-found marker. -/
theorem c3_rawEnd_characterization (s : List Char) (e : RE) (off : Nat) :
    (∀ ci cm, firstMatchPos commentInside s = some (ci, cm) →
      (ci : Int) < jsSearch e s →
      rawEnd s e off =
        rawEnd (s.drop (ci + cm.m0.length)) e (off + (ci + cm.m0.length))) ∧
    (∀ ci cm, firstMatchPos commentInside s = some (ci, cm) →
      ¬((ci : Int) < jsSearch e s) →
      rawEnd s e off = jsSearch e s + off) ∧
    (firstMatchPos commentInside s = none →
      rawEnd s e off = jsSearch e s + off) := by
  refine ⟨?_, ?_, ?_⟩
  · intro ci cm hc hlt
    have hb := firstMatchPos_comment_bounds hc
    have kk : rawEndF e (s.length + 1) s off =
        rawEndF e s.length (s.drop (ci + cm.m0.length)) (off + (ci + cm.m0.length)) := by
      simp only [rawEndF]
      rw [hc]
      dsimp only
      rw [if_pos hlt]
    unfold rawEnd
    rw [kk]
    exact rawEndF_fuel e s.length ((s.drop (ci + cm.m0.length)).length + 1) _ _
      (by rw [List.length_drop]; omega) (by rw [List.length_drop]; omega)
  · intro ci cm hc hlt
    unfold rawEnd
    simp only [rawEndF]
    rw [hc]
    dsimp only
    rw [if_neg hlt]
  · intro hc
    unfold rawEnd
    simp only [rawEndF]
    rw [hc]

/-- Witness for the amended C3 at a concrete comment-skipping input. -/
theorem c3_rawEnd_characterization_witness :
    rawEnd "<!--a-->x</s".data (reLit "</s".data) 0 =
      rawEnd ("<!--a-->x</s".data.drop (0 + "<!--a-->".data.length))
        (reLit "</s".data) (0 + (0 + "<!--a-->".data.length)) :=
  (c3_rawEnd_characterization "<!--a-->x</s".data (reLit "</s".data) 0).1 0
    ⟨"<!--a-->".data, [], "x</s".data⟩ (by decide) (by decide)

/-- Claim C4 counterexample: the claimed universal store-and-lookup law
fails for an attribute named proto — on a start tag carrying it, the
specification decode of the last occurrence with that lower-cased name is
the captured value, yet the program's assignment is intercepted by the
prototype accessor and creates no entry, so the start callback receives an
empty mapping and the lookup is not the decoded value. -/
theorem c4_proto_counterexample :
    (parse 5 "<div __proto__=x>".data {}).1 =
      [Event.start "<div __proto__=x>".data "div".data [] []] ∧
    objLookup (buildAttrs " __proto__=x".data) "__proto__".data = none ∧
    ((jsMatchAll attr " __proto__=x".data).reverse.find? fun m =>
        ((getCap m.caps 1).getD []).map Char.toLower == "__proto__".data).map
      (fun m => specAttrDecode m.caps) = some (some "x".data) ∧
    (none : Option (Option (List Char))) ≠ some (some "x".data) :=
  ⟨by decide, by decide, by decide, by decide⟩

/-- Claim C4, amended: the attribute mapping of a start tag is keyed by
lower-cased attribute names; for every name other than proto, a quoted or
unquoted captured value is stored verbatim, an equals sign without a
captured value stores the empty string, an attribute without an equals
sign stores the null marker, and a later occurrence of the same name
overwrites an earlier one — the lookup of any such key equals the
specification decode of the last occurrence with that lower-cased name.
An occurrence whose lower-cased name is proto creates no entry while the
prototype accessor is intact: in particular, whenever every proto-named
occurrence carries a value, the mapping has no proto entry at all.  The
disabled, empty-value, unquoted-value and overwrite examples produce the
stated mappings. -/
theorem c4_attribute_decoding :
    (∀ (rem : List Char) (k : List Char), k ≠ protoKey →
      objLookup (buildAttrs rem) k =
        ((jsMatchAll attr rem).reverse.find? fun m =>
          ((getCap m.caps 1).getD []).map Char.toLower == k).map
          fun m => specAttrDecode m.caps) ∧
    (∀ rem : List Char,
      (∀ m ∈ jsMatchAll attr rem,
        ((getCap m.caps 1).getD []).map Char.toLower = protoKey →
        specAttrDecode m.caps ≠ none) →
      objLookup (buildAttrs rem) protoKey = none) ∧
    (parse 5 "<input disabled>".data {}).1 =
      [Event.start "<input disabled>".data "input".data
        [("disabled".data, none)] []] ∧
    (parse 5 "<input value=\"\">".data {}).1 =
      [Event.start "<input value=\"\">".data "input".data
        [("value".data, some [])] []] ∧
    (parse 5 "<input value=foo>".data {}).1 =
      [Event.start "<input value=foo>".data "input".data
        [("value".data, some "foo".data)] []] ∧
    (parse 5 "<a X=1 x=2>".data {}).1 =
      [Event.start "<a X=1 x=2>".data "a".data [("x".data, some "2".data)] []] := by
  refine ⟨?_, ?_, by decide, by decide, by decide, by decide⟩
  · intro rem k hk
    rw [buildAttrs_lookup_ne rem k hk]
    cases hf : (jsMatchAll attr rem).reverse.find? fun m =>
        ((getCap m.caps 1).getD []).map Char.toLower == k with
    | none => rfl
    | some m =>
      have hm : m ∈ jsMatchAll attr rem :=
        List.mem_reverse.1 (List.mem_of_find?_eq_some hf)
      obtain ⟨s', r, hr, hcaps⟩ := jsMatchAll_mem hm
      simp only [Option.map_some']
      rw [hcaps, attrValue_eq_specAttrDecode hr]
  · intro rem hspec
    unfold buildAttrs
    apply foldl_objAssign_proto_drop
    · rfl
    · rfl
    · intro m hm hk
      obtain ⟨s', r, hr, hcaps⟩ := jsMatchAll_mem hm
      rw [hcaps, attrValue_eq_specAttrDecode hr, ← hcaps]
      exact hspec m hm hk

/-- Witness for the amended C4: a later occurrence overwrites at an
ordinary key, and a value-carrying proto-named attribute leaves no
entry. -/
theorem c4_attribute_decoding_witness :
    objLookup (buildAttrs " a=1 a=2".data) "a".data = some (some "2".data) ∧
    objLookup (buildAttrs " __proto__=x".data) protoKey = none :=
  ⟨(c4_attribute_decoding.1 " a=1 a=2".data "a".data (by decide)).trans (by decide),
   c4_attribute_decoding.2.1 " __proto__=x".data (by decide)⟩

/-- Claim C5: a stalled iteration (the remaining input unchanged from the
previous iteration) invokes the error callback with the unconsumed
remainder and parsing continues into the dispatch when an error handler is
configured; without an error handler the error is thrown to the caller and
the call aborts with no further callback invocations. -/
theorem c5_stall_error_handling (me : List Char → RE) (rt : List Char → Bool)
    (he : Bool) (fuel : Nat) (html : List Char) (hne : html.isEmpty = false) :
    (he = false →
      parseLoop me rt he (fuel+1) html (some html) = ([], Outcome.thrown html)) ∧
    (he = true →
      parseLoop me rt he (fuel+1) html (some html) =
        (Event.error html :: (dispatch me rt html).1 ++
          (parseLoop me rt he fuel (dispatch me rt html).2 (some html)).1,
         (parseLoop me rt he fuel (dispatch me rt html).2 (some html)).2)) := by
  constructor
  · intro h
    subst h
    simp only [parseLoop]
    rw [if_neg (by simp [hne]), if_pos (by trivial), if_neg (by simp)]
  · intro h
    subst h
    simp only [parseLoop]
    rw [if_neg (by simp [hne]), if_pos (by trivial), if_pos (by trivial)]

/-- Witness for C5: without an error handler a stalled iteration throws. -/
theorem c5_stall_error_handling_witness :
    parseLoop matchEndDefault rawTagsDefault false 3 "<".data (some "<".data) =
      ([], Outcome.thrown "<".data) :=
  (c5_stall_error_handling matchEndDefault rawTagsDefault false 2 "<".data
    (by decide)).1 rfl

/-- Claim C6 counterexample: with an error callback configured, parse on a
lone stray bracket never terminates — no amount of fuel makes the loop end
on its own, refuting termination for every configuration. -/
theorem c6_nontermination_counterexample :
    ¬ Terminates "<".data { error := true } := by
  rintro ⟨n, hn⟩
  apply hn
  unfold parse
  rw [if_neg (by decide)]
  exact parseLoop_stall_forever n none (Or.inl rfl)

/-- Claim C6, amended: for every input string and every configuration
without an error callback, the parse call terminates — the cursor loop ends
when the remaining slice is empty or the call aborts by raising, after
finitely many iterations. -/
theorem c6_terminates_without_error_handler (html : List Char) (o : Options)
    (h : o.error = false) : Terminates html o := by
  by_cases hemp : html.isEmpty
  · refine ⟨1, ?_⟩
    unfold parse
    rw [if_pos hemp]
    simp
  · obtain ⟨n, hn⟩ := parseLoop_terminates_noerror (o.matchEnd.getD matchEndDefault)
      (o.rawTags.getD rawTagsDefault) html.length html (Nat.le_refl _) none
    refine ⟨n, ?_⟩
    unfold parse
    rw [if_neg hemp, h]
    exact hn

/-- Witness for the amended C6 at a concrete stalling input without an
error handler. -/
theorem c6_terminates_without_error_handler_witness :
    Terminates "<".data ({} : Options) :=
  c6_terminates_without_error_handler "<".data {} rfl

/-- Claim C7: the text-run extractor given a found offset emits the span
up to the offset as one text unit and advances the cursor there, given the
not-found marker emits the entire remaining input as one final text unit
and empties the cursor, and invokes no text callback at all when the
resulting text unit has zero length. -/
theorem c7_text_extractor (html : List Char) (i : Int) (b : Bool) :
    (∀ k : Nat, i = (k : Int) → k ≤ html.length →
      onText html i b =
        ((if (html.take k).isEmpty then []
          else [Event.text (html.take k) b (html.drop k)]), html.drop k)) ∧
    (i = -1 →
      onText html i b =
        ((if html.isEmpty then [] else [Event.text html b []]), [])) := by
  constructor
  · rintro k rfl hk
    unfold onText
    rw [if_pos (by omega)]
    have hc : jsClamp html.length (k : Int) = k := by
      unfold jsClamp
      rw [if_neg (by omega)]
      rw [Int.toNat_natCast]
      exact Nat.min_eq_left hk
    rw [hc]
  · rintro rfl
    unfold onText
    rw [if_neg (fun hc => hc rfl)]

/-- Witness for C7 at a concrete found offset. -/
theorem c7_text_extractor_witness :
    onText "ab<c".data (2 : Int) false =
      ([Event.text "ab".data false "<c".data], "<c".data) :=
  ((c7_text_extractor "ab<c".data 2 false).1 2 rfl (by decide)).trans (by decide)

/-- Claim C8: parse is deterministic across runs — it is a pure function of
the input and configuration, and the event trace does not depend on the
modelling fuel once the call has completed, so two invocations on the same
input and configuration produce identical callback sequences. -/
theorem c8_deterministic (n : Nat) (html : List Char) (o : Options)
    (evs : List Event) (out : Outcome) (h : parse n html o = (evs, out))
    (hout : out ≠ Outcome.outOfFuel) :
    ∀ m, n ≤ m → parse m html o = (evs, out) := by
  intro m hm
  unfold parse at h ⊢
  by_cases hemp : html.isEmpty
  · rw [if_pos hemp] at h ⊢
    exact h
  · rw [if_neg hemp] at h ⊢
    exact parseLoop_fuel_mono _ _ _ n html none evs out h hout m hm

/-- Witness for C8: a second run with more fuel produces the identical
callback sequence. -/
theorem c8_deterministic_witness :
    parse 9 "x".data {} = ([Event.text "x".data false []], Outcome.done) :=
  c8_deterministic 2 "x".data {} [Event.text "x".data false []] Outcome.done
    (by decide) (by decide) 9 (by decide)

/-- Claim C9: every remainder argument passed to a start, end, text,
comment or other callback is a contiguous suffix of the original input,
and across successive callback invocations in one parse call these
remainders shrink monotonically — each is a suffix of the previous one. -/
theorem c9_remainder_suffix_chain (n : Nat) (html : List Char) (o : Options)
    (evs : List Event) (out : Outcome) (h : parse n html o = (evs, out)) :
    (∀ r ∈ evs.filterMap restOf, r <:+ html) ∧
    List.Chain' (fun a b => b <:+ a) (evs.filterMap restOf) := by
  unfold parse at h
  by_cases hemp : html.isEmpty
  · rw [if_pos hemp] at h
    injection h with h1 _
    subst h1
    simp
  · rw [if_neg hemp] at h
    have hres := parseLoop_rests (o.matchEnd.getD matchEndDefault)
      (o.rawTags.getD rawTagsDefault) o.error n html none
    rw [h] at hres
    simpa using hres

/-- Witness for C9 at a concrete input. -/
theorem c9_remainder_suffix_chain_witness :
    (∀ r ∈ ([Event.comment "<!--x-->".data "x".data "y".data,
        Event.text "y".data false []].filterMap restOf), r <:+ "<!--x-->y".data) ∧
    List.Chain' (fun a b => b <:+ a)
      ([Event.comment "<!--x-->".data "x".data "y".data,
        Event.text "y".data false []].filterMap restOf) :=
  c9_remainder_suffix_chain 5 "<!--x-->y".data {}
    [Event.comment "<!--x-->".data "x".data "y".data,
     Event.text "y".data false []] Outcome.done (by decide)

/-- Claim C10: parse called on the empty string returns immediately and
invokes no callbacks, for every configuration and any fuel. -/
theorem c10_empty_input (n : Nat) (o : Options) :
    parse n [] o = ([], Outcome.done) := rfl

end Html
